import Mathlib

/-!
Verification of the spine-rs-cli rendering pipeline specification.

Shallow embedding of `src/spine.rs` and `src/main.rs`: the blend-mode to
GPU-blend-state table, the lazy texture cache, the skin composer, the
texture delete queue, the per-frame draw routine for both output sinks,
the vertical row flip applied to the captured pixel buffer, the dt clamp
of the update tick, and the world-transform construction.
-/

namespace SpineCli

/-! ## Blend state mapping (src/spine.rs, `GetBlendStates for BlendMode`)

The miniquad blend-state vocabulary, as used by the source. -/

inductive BlendValue
  | SourceColor
  | SourceAlpha
  | DestinationColor
  | DestinationAlpha
  deriving DecidableEq, Repr

inductive BlendFactor
  | Zero
  | One
  | Value (v : BlendValue)
  | OneMinusValue (v : BlendValue)
  deriving DecidableEq, Repr

inductive Equation
  | Add
  | Subtract
  | ReverseSubtract
  deriving DecidableEq, Repr

structure BlendState where
  equation : Equation
  sfactor : BlendFactor
  dfactor : BlendFactor
  deriving DecidableEq, Repr

/-- Constructor corresponding to miniquad's
`BlendState::new(equation, sfactor, dfactor)`. -/
def BlendState.new (e : Equation) (s d : BlendFactor) : BlendState :=
  ⟨e, s, d⟩

structure BlendStates where
  alpha_blend : BlendState
  color_blend : BlendState
  deriving DecidableEq, Repr

inductive BlendMode
  | Normal
  | Additive
  | Multiply
  | Screen
  deriving DecidableEq, Repr, Fintype

open BlendValue BlendFactor Equation in
/-- Embeds `get_blend_states` from `impl GetBlendStates for BlendMode`
(src/spine.rs lines 545-650), case by case in source order. -/
def get_blend_states (mode : BlendMode) (premultiplied_alpha : Bool) : BlendStates :=
  match mode with
  | .Additive =>
    match premultiplied_alpha with
    | false =>
      { alpha_blend := BlendState.new Add One One
        color_blend := BlendState.new Add (Value SourceAlpha) One }
    | true =>
      { alpha_blend := BlendState.new Add One One
        color_blend := BlendState.new Add One One }
  | .Multiply =>
    match premultiplied_alpha with
    | false =>
      { alpha_blend := BlendState.new Add (OneMinusValue SourceAlpha) (OneMinusValue SourceAlpha)
        color_blend := BlendState.new Add (Value DestinationColor) (OneMinusValue SourceAlpha) }
    | true =>
      { alpha_blend := BlendState.new Add (OneMinusValue SourceAlpha) (OneMinusValue SourceAlpha)
        color_blend := BlendState.new Add (Value DestinationColor) (OneMinusValue SourceAlpha) }
  | .Normal =>
    match premultiplied_alpha with
    | false =>
      { alpha_blend := BlendState.new Add One (OneMinusValue SourceAlpha)
        color_blend := BlendState.new Add (Value SourceAlpha) (OneMinusValue SourceAlpha) }
    | true =>
      { alpha_blend := BlendState.new Add One (OneMinusValue SourceAlpha)
        color_blend := BlendState.new Add One (OneMinusValue SourceAlpha) }
  | .Screen =>
    match premultiplied_alpha with
    | false =>
      { alpha_blend := BlendState.new Add (OneMinusValue SourceColor) (OneMinusValue SourceAlpha)
        color_blend := BlendState.new Add One (OneMinusValue SourceAlpha) }
    | true =>
      { alpha_blend := BlendState.new Add (OneMinusValue SourceColor) (OneMinusValue SourceAlpha)
        color_blend := BlendState.new Add One (OneMinusValue SourceAlpha) }

open BlendValue BlendFactor Equation in
/-- The literal 8-row blend-factor table of spec section 6, written from the
spec's words (standard blend-factor names; equation Add in all cases). Used
only to compare against `get_blend_states`. -/
def specBlendTable (mode : BlendMode) (pma : Bool) : BlendStates :=
  match mode, pma with
  | .Additive, false =>
    { alpha_blend := ⟨Add, One, One⟩
      color_blend := ⟨Add, Value SourceAlpha, One⟩ }
  | .Additive, true =>
    { alpha_blend := ⟨Add, One, One⟩
      color_blend := ⟨Add, One, One⟩ }
  | .Multiply, false =>
    { alpha_blend := ⟨Add, OneMinusValue SourceAlpha, OneMinusValue SourceAlpha⟩
      color_blend := ⟨Add, Value DestinationColor, OneMinusValue SourceAlpha⟩ }
  | .Multiply, true =>
    { alpha_blend := ⟨Add, OneMinusValue SourceAlpha, OneMinusValue SourceAlpha⟩
      color_blend := ⟨Add, Value DestinationColor, OneMinusValue SourceAlpha⟩ }
  | .Normal, false =>
    { alpha_blend := ⟨Add, One, OneMinusValue SourceAlpha⟩
      color_blend := ⟨Add, Value SourceAlpha, OneMinusValue SourceAlpha⟩ }
  | .Normal, true =>
    { alpha_blend := ⟨Add, One, OneMinusValue SourceAlpha⟩
      color_blend := ⟨Add, One, OneMinusValue SourceAlpha⟩ }
  | .Screen, false =>
    { alpha_blend := ⟨Add, OneMinusValue SourceColor, OneMinusValue SourceAlpha⟩
      color_blend := ⟨Add, One, OneMinusValue SourceAlpha⟩ }
  | .Screen, true =>
    { alpha_blend := ⟨Add, OneMinusValue SourceColor, OneMinusValue SourceAlpha⟩
      color_blend := ⟨Add, One, OneMinusValue SourceAlpha⟩ }

/-! ## Update tick (src/spine.rs, `Stage::update`) -/

/-- The per-tick delta computed by `Stage::update`:
`((now - self.last_frame_time) as f32).max(0.001)`. Timestamps modelled
as rationals. -/
def update_dt (now last_frame_time : ℚ) : ℚ :=
  max (now - last_frame_time) (1 / 1000)

/-- The epsilon of the dt clamp. -/
def dtEpsilon : ℚ := 1 / 1000

/-! ## World transform (src/spine.rs, `Spine::load`) -/

structure SpineInfoM where
  position : ℚ × ℚ
  scale : ℚ

/-- The translation computed by `Spine::load`: `let mut pos = info.position;
pos.y -= 300.0;`. -/
def spine_load_translation (info : SpineInfoM) : ℚ × ℚ :=
  (info.position.1, info.position.2 - 300)

/-- The world transform of `Spine::load` applied to a point:
`Mat4::from_translation(pos.extend(0.)) * Mat4::from_scale(Vec2::splat(info.scale).extend(1.))`,
i.e. scale first, then translate. -/
def spine_load_world (info : SpineInfoM) (v : ℚ × ℚ) : ℚ × ℚ :=
  ((spine_load_translation info).1 + info.scale * v.1,
   (spine_load_translation info).2 + info.scale * v.2)

/-! ## Texture cache (src/spine.rs, `SpineTexture` and the resolution
`match` inside `Stage::draw`, lines 449-490) -/

inductive FilterMode
  | Nearest
  | Linear
  deriving DecidableEq, Repr

inductive TextureWrap
  | Clamp
  | Mirror
  | Repeat
  deriving DecidableEq, Repr

inductive TextureFormat
  | RGB8
  | RGBA8
  | Depth
  deriving DecidableEq, Repr

/-- Embeds the `SpineTexture` enum (src/spine.rs lines 652-663). GPU texture
handles are modelled as naturals. -/
inductive SpineTexture
  | NeedsToBeLoaded (path : String) (min_filter mag_filter : FilterMode)
      (x_wrap y_wrap : TextureWrap) (format : TextureFormat)
  | Loaded (texture : Nat)
  deriving DecidableEq, Repr

/-- The external decode-and-upload primitive: opening and decoding the image
at `path` and creating a GPU texture with the requested format, filters and
wrap modes (`image::io::Reader::open(..).decode()` followed by
`Texture::from_data_and_format` / `set_filter_min_mag` / `set_wrap_xy`). -/
abbrev CreateTexture :=
  String → FilterMode → FilterMode → TextureWrap → TextureWrap → TextureFormat → Nat

structure ResolveResult where
  texture : Nat
  state : SpineTexture
  decodes : Nat
  deriving DecidableEq, Repr

/-- Embeds the texture-resolution `match` of `Stage::draw`
(src/spine.rs lines 451-490): a `NeedsToBeLoaded` slot decodes the image,
creates the GPU texture, replaces the slot state with `Loaded` and returns
the handle; a `Loaded` slot returns the cached handle. `decodes` counts
invocations of the underlying decoder. -/
def resolve_texture (create : CreateTexture) : SpineTexture → ResolveResult
  | .NeedsToBeLoaded path min_filter mag_filter x_wrap y_wrap format =>
      let texture := create path min_filter mag_filter x_wrap y_wrap format
      { texture := texture, state := .Loaded texture, decodes := 1 }
  | .Loaded texture =>
      { texture := texture, state := .Loaded texture, decodes := 0 }

/-- Repeated resolution of the same slot across `n` frames, threading the
slot state and accumulating decoder invocations. -/
def resolve_seq (create : CreateTexture) : Nat → SpineTexture → SpineTexture × Nat
  | 0, s => (s, 0)
  | n + 1, s =>
      let r := resolve_texture create s
      let rest := resolve_seq create n r.state
      (rest.1, r.decodes + rest.2)

/-! ## Skin composition (src/main.rs, `render`, lines 128-139) -/

/-- A skin's attachment map: ordered list of (attachment key, attachment
definition marker). -/
abbrev Skin := List (String × Nat)

/-- Overwrite-or-append of a single attachment into a composite skin. -/
def insert_attachment (s : Skin) (k : String) (v : Nat) : Skin :=
  if s.any (fun p => p.1 = k) then
    s.map (fun p => if p.1 = k then (k, v) else p)
  else
    s ++ [(k, v)]

/-- Modelled from the spec: `rusty_spine::Skin::add_skin` is external to the
repository (only its caller `render` is under src/); per spec section 4.1 the
overlay's attachments are merged into the growing composite, last writer
wins on key collision. -/
def add_skin (composite overlay : Skin) : Skin :=
  overlay.foldl (fun acc kv => insert_attachment acc kv.1 kv.2) composite

/-- Embeds the composition loop of `render` (src/main.rs lines 128-139):
start from a clone of the base skin, then for each overlay skin in list
order merge it into the composite with `add_skin`. -/
def compose (base : Skin) (overlays : List Skin) : Skin :=
  overlays.foldl add_skin base

/-- Attachment lookup by key (first matching entry). -/
def find_attachment (s : Skin) (k : String) : Option Nat :=
  s.lookup k

/-! ## The draw routine (src/spine.rs, `Stage::draw`, lines 239-506)

The draw routine is modelled as a trace of the externally visible GPU and
process actions it performs, in program order, together with the resulting
delete-queue contents. -/

/-- Capacity ceilings (src/spine.rs lines 14-15), used to size the pooled
vertex and index buffers. -/
def MAX_MESH_VERTICES : Nat := 10000

def MAX_MESH_INDICES : Nat := 5000

/-- The fields of a per-frame renderable that `Stage::draw` consumes:
vertex count (`renderable.vertices.len()`), index count
(`renderable.indices.len()`), the attachment's texture slot (if any), and the
blend mode. -/
structure Renderable where
  vertices : Nat
  indices : Nat
  attachment_renderer_object : Option SpineTexture
  blend_mode : BlendMode
  deriving DecidableEq, Repr

/-- The externally visible actions of one `Stage::draw` call, in program
order. `meshOverflow` is the fatal validation event demanded by spec
section 4.4; it is part of the vocabulary so that its absence from every
trace can be stated. -/
inductive FrameEvent
  | drainTexture (handle : Nat)
  | beginOffscreenPass
  | beginDefaultPass
  | setBlend (states : BlendStates)
  | bufferUpdate (vertexCount indexCount : Nat)
  | decodeImage (path : String)
  | drawCall (indexCount : Nat)
  | endPass
  | commitFrame
  | readback (bytes : Nat)
  | flipRows
  | saveImage (path : String)
  | processExit (code : Nat)
  | meshOverflow
  deriving DecidableEq, Repr

/-- The per-renderable body of the draw loop (identical in both branches of
`Stage::draw`): set the blend state from the renderable's blend mode, stream
the full vertex and index data into the pooled buffers, then — only if the
renderable has an attachment — resolve the texture (decoding on first use)
and issue the draw call. No size validation is performed. -/
def render_renderable (premultiplied_alpha : Bool) (r : Renderable) : List FrameEvent :=
  [.setBlend (get_blend_states r.blend_mode premultiplied_alpha),
   .bufferUpdate r.vertices r.indices] ++
  match r.attachment_renderer_object with
  | none => []
  | some (.NeedsToBeLoaded path _ _ _ _ _) => [.decodeImage path, .drawCall r.indices]
  | some (.Loaded _) => [.drawCall r.indices]

/-- Pixel width computed by the capture branch of `Stage::draw`:
`(self.screen_size.x * ctx.dpi_scale()) as usize` (truncation of a
non-negative value is the floor). -/
def readback_width (screen_size_x dpi_scale : ℚ) : Nat :=
  ⌊screen_size_x * dpi_scale⌋.toNat

/-- Byte length of the readback buffer: `vec![0u8; w * h * 4]`. -/
def pixel_buffer_len (w h : Nat) : Nat := w * h * 4

/-- The inputs of one `Stage::draw` call. -/
structure DrawInput where
  render_png : Bool
  premultiplied_alpha : Bool
  dpi_scale : ℚ
  screen_size : ℚ × ℚ
  png_path : String
  texture_delete_queue : List Nat
  renderables : List Renderable

/-- Embeds `Stage::draw` (src/spine.rs lines 239-506) as the trace of its
actions plus the delete queue it leaves behind. In the capture branch
(`render_png`): offscreen pass, per-renderable loop, readback of the
`w*h*4`-byte buffer, in-place row flip, image save, `exit(0)` — the delete
queue is untouched. In the screen branch: the queue is drained front to back
first, then the default pass and the same per-renderable loop run. -/
def stage_draw (s : DrawInput) : List FrameEvent × List Nat :=
  if s.render_png then
    ([FrameEvent.beginOffscreenPass] ++
      (s.renderables.map (render_renderable s.premultiplied_alpha)).flatten ++
      [FrameEvent.endPass, FrameEvent.commitFrame,
       FrameEvent.readback
         (pixel_buffer_len (readback_width s.screen_size.1 s.dpi_scale)
           (readback_width s.screen_size.2 s.dpi_scale)),
       FrameEvent.flipRows, FrameEvent.saveImage s.png_path,
       FrameEvent.processExit 0],
     s.texture_delete_queue)
  else
    (s.texture_delete_queue.map FrameEvent.drainTexture ++
      ([FrameEvent.beginDefaultPass] ++
        (s.renderables.map (render_renderable s.premultiplied_alpha)).flatten ++
        [FrameEvent.endPass, FrameEvent.commitFrame]),
     [])

/-- The disposal callback (src/main.rs lines 165-172): pushes the loaded
handle onto the back of the shared queue. -/
def enqueue_disposal (queue : List Nat) (handle : Nat) : List Nat :=
  queue ++ [handle]

/-- Recognizer for drain events. -/
def FrameEvent.isDrain : FrameEvent → Bool
  | .drainTexture _ => true
  | _ => false

/-- Recognizer for draw calls. -/
def FrameEvent.isDraw : FrameEvent → Bool
  | .drawCall _ => true
  | _ => false

/-- Recognizer for process-exit events. -/
def FrameEvent.isExit : FrameEvent → Bool
  | .processExit _ => true
  | _ => false

/-- Every drain event in the trace occurs strictly before every draw call. -/
def drains_before_draws (events : List FrameEvent) : Prop :=
  ∀ i j, (hi : i < events.length) → (hj : j < events.length) →
    (events.get ⟨i, hi⟩).isDrain = true → (events.get ⟨j, hj⟩).isDraw = true →
    i < j

/-- The host event loop driving `Stage::draw` once per frame for up to `n`
frames, threading the delete queue; a frame whose trace contains a
process-exit event terminates the whole run (the process is gone). `frames i`
gives the renderables produced for the i-th frame. -/
def run_host (render_png premultiplied_alpha : Bool) (dpi_scale : ℚ)
    (screen_size : ℚ × ℚ) (png_path : String) :
    Nat → List Nat → (Nat → List Renderable) → List FrameEvent
  | 0, _, _ => []
  | n + 1, queue, frames =>
      let res := stage_draw
        { render_png := render_png, premultiplied_alpha := premultiplied_alpha,
          dpi_scale := dpi_scale, screen_size := screen_size,
          png_path := png_path, texture_delete_queue := queue,
          renderables := frames 0 }
      if res.1.any FrameEvent.isExit then
        res.1
      else
        res.1 ++ run_host render_png premultiplied_alpha dpi_scale screen_size
          png_path n res.2 (fun i => frames (i + 1))

/-! ## Offscreen target sizing (src/spine.rs, `Stage::new`, lines 168-217) -/

/-- Pixel size of the offscreen color and depth render targets:
`(800. * ctx.dpi_scale()) as u32` for both width and height; the logical
size is the literal 800×800. -/
def offscreen_target_size (dpi_scale : ℚ) : Nat × Nat :=
  (⌊800 * dpi_scale⌋.toNat, ⌊800 * dpi_scale⌋.toNat)

/-- The logical window dimensions used by `Stage::new`. -/
def logical_size : Nat × Nat := (800, 800)

/-- A concrete screen-mode draw input, for instantiating the theorems. -/
def screen_example (queue : List Nat) (rs : List Renderable) : DrawInput :=
  { render_png := false, premultiplied_alpha := false, dpi_scale := 1,
    screen_size := (800, 800), png_path := "out.png",
    texture_delete_queue := queue, renderables := rs }

/-- A concrete capture-mode draw input, for instantiating the theorems. -/
def png_example (queue : List Nat) (rs : List Renderable) : DrawInput :=
  { render_png := true, premultiplied_alpha := false, dpi_scale := 1,
    screen_size := (800, 800), png_path := "out.png",
    texture_delete_queue := queue, renderables := rs }

/-! ## Vertical flip of the captured pixel buffer
(src/spine.rs, `Stage::draw`, lines 369-387) -/

/-- Read the byte segment `[start, start + len)` of the buffer (borrowing a
row slice). -/
def get_seg (buf : List Nat) (start len : Nat) : List Nat :=
  (buf.drop start).take len

/-- Overwrite the buffer with `seg` starting at `start` (writing back into a
row slice). -/
def set_seg (buf seg : List Nat) (start : Nat) : List Nat :=
  buf.take start ++ seg ++ buf.drop (start + seg.length)

/-- One iteration of the flip loop: the rows starting at `y * line_bytes` and
`(h - 1 - y) * line_bytes`, each `line_bytes` long, are swapped
(`top_row.swap_with_slice(bottom_row)`). -/
def row_swap (line_bytes h y : Nat) (buf : List Nat) : List Nat :=
  let top_row := get_seg buf (y * line_bytes) line_bytes
  let bottom_row := get_seg buf ((h - 1 - y) * line_bytes) line_bytes
  set_seg (set_seg buf bottom_row (y * line_bytes)) top_row
    ((h - 1 - y) * line_bytes)

/-- The in-place vertical flip: `let line_bytes = w * 4; for y in 0..(h / 2)`
swap rows `y` and `h - 1 - y`. -/
def flip_vertical (w h : Nat) (buf : List Nat) : List Nat :=
  (List.range (h / 2)).foldl (fun b y => row_swap (w * 4) h y b) buf

/-- View a packed buffer as its list of `h` rows of `line` bytes each. -/
def to_rows (line : Nat) : Nat → List Nat → List (List Nat)
  | 0, _ => []
  | hh + 1, buf => buf.take line :: to_rows line hh (buf.drop line)

/-- Swap of two row indices in the row-list view of the buffer. -/
def swap_rows (l : List (List Nat)) (y z : Nat) : List (List Nat) :=
  (l.set y (l.getD z [])).set z (l.getD y [])

/-- The flip loop on the row-list view. -/
def flip_rows (h : Nat) (l : List (List Nat)) : List (List Nat) :=
  (List.range (h / 2)).foldl (fun acc y => swap_rows acc y (h - 1 - y)) l

/-- The `screen_size` field stored by `Stage::new`:
`Vec2::new(w_px as f32, h_px as f32)`, i.e. the physical pixel size of the
offscreen target (not the logical size). -/
def stage_new_screen_size (dpi_scale : ℚ) : ℚ × ℚ :=
  (((offscreen_target_size dpi_scale).1 : ℚ),
   ((offscreen_target_size dpi_scale).2 : ℚ))

end SpineCli

namespace SpineCli

/-! ## Helper lemmas -/

theorem resolve_seq_loaded (create : CreateTexture) (t : Nat) :
    ∀ n, resolve_seq create n (.Loaded t) = (.Loaded t, 0) := by
  intro n
  induction n with
  | zero => rfl
  | succ n ih => simp [resolve_seq, resolve_texture, ih]

theorem lookup_overwrite_self (k : String) (v : Nat) :
    ∀ s : Skin, s.any (fun p => p.1 = k) = true →
      List.lookup k (s.map (fun p => if p.1 = k then (k, v) else p)) = some v := by
  intro s
  induction s with
  | nil => intro h; simp at h
  | cons p rest ih =>
    intro h
    obtain ⟨pk, pv⟩ := p
    simp only [List.map_cons]
    by_cases hp : pk = k
    · subst hp
      rw [if_pos rfl]
      simp [List.lookup]
    · have hrest : rest.any (fun p => p.1 = k) = true := by
        simpa [hp] using h
      have hbeq : (k == pk) = false := by
        simp only [beq_eq_false_iff_ne, ne_eq]
        exact fun hh => hp hh.symm
      rw [if_neg hp]
      simp [List.lookup, hbeq, ih hrest]

theorem lookup_overwrite_ne (k k' : String) (v : Nat) (hne : k' ≠ k) :
    ∀ s : Skin,
      List.lookup k' (s.map (fun p => if p.1 = k then (k, v) else p)) =
        List.lookup k' s := by
  intro s
  induction s with
  | nil => rfl
  | cons p rest ih =>
    obtain ⟨pk, pv⟩ := p
    simp only [List.map_cons]
    by_cases hp : pk = k
    · subst hp
      have hbeq : (k' == pk) = false := by
        simpa [beq_eq_false_iff_ne] using hne
      rw [if_pos rfl]
      simp [List.lookup, hbeq, ih]
    · rw [if_neg hp]
      by_cases hk' : k' = pk
      · subst hk'
        simp [List.lookup]
      · have hbeq' : (k' == pk) = false := by
          simpa [beq_eq_false_iff_ne] using hk'
        simp [List.lookup, hbeq', ih]

theorem lookup_append_single_self (k : String) (v : Nat) :
    ∀ s : Skin, s.any (fun p => p.1 = k) = false →
      List.lookup k (s ++ [(k, v)]) = some v := by
  intro s
  induction s with
  | nil => simp [List.lookup]
  | cons p rest ih =>
    intro h
    obtain ⟨pk, pv⟩ := p
    have hp : ¬ pk = k := by
      intro hh
      simp [hh] at h
    have hrest : rest.any (fun p => p.1 = k) = false := by
      simpa [hp] using h
    have hbeq : (k == pk) = false := by
      simp only [beq_eq_false_iff_ne, ne_eq]
      exact fun hh => hp hh.symm
    simp [List.lookup, hbeq, ih hrest]

theorem lookup_append_single_ne (k k' : String) (v : Nat) (hne : k' ≠ k) :
    ∀ s : Skin, List.lookup k' (s ++ [(k, v)]) = List.lookup k' s := by
  intro s
  induction s with
  | nil => simp [List.lookup, beq_eq_false_iff_ne.mpr hne]
  | cons p rest ih =>
    obtain ⟨pk, pv⟩ := p
    by_cases hk' : k' = pk
    · simp [List.lookup, hk']
    · have hbeq' : (k' == pk) = false := by
        simpa [beq_eq_false_iff_ne] using hk'
      simp [List.lookup, hbeq', ih]

theorem find_attachment_insert_self (s : Skin) (k : String) (v : Nat) :
    find_attachment (insert_attachment s k v) k = some v := by
  unfold find_attachment insert_attachment
  by_cases hany : s.any (fun p => p.1 = k)
  · simpa [hany] using lookup_overwrite_self k v s hany
  · have h : s.any (fun p => p.1 = k) = false := Bool.eq_false_iff.mpr hany
    simpa [h] using lookup_append_single_self k v s h

theorem find_attachment_insert_ne (s : Skin) (k k' : String) (v : Nat)
    (hne : k' ≠ k) :
    find_attachment (insert_attachment s k v) k' = find_attachment s k' := by
  unfold find_attachment insert_attachment
  by_cases hany : s.any (fun p => p.1 = k)
  · simpa [hany] using lookup_overwrite_ne k k' v hne s
  · have h : s.any (fun p => p.1 = k) = false := Bool.eq_false_iff.mpr hany
    simpa [h] using lookup_append_single_ne k k' v hne s

theorem render_renderable_mem (pma : Bool) (r : Renderable) (e : FrameEvent)
    (h : e ∈ render_renderable pma r) :
    (∃ bs, e = FrameEvent.setBlend bs) ∨
    (∃ a b, e = FrameEvent.bufferUpdate a b) ∨
    (∃ p, e = FrameEvent.decodeImage p) ∨
    (∃ m, e = FrameEvent.drawCall m) := by
  rcases r with ⟨v, i, att, bm⟩
  cases att with
  | none =>
    simp [render_renderable] at h
    rcases h with h | h
    · exact Or.inl ⟨_, h⟩
    · exact Or.inr (Or.inl ⟨_, _, h⟩)
  | some t =>
    cases t with
    | NeedsToBeLoaded p mf gf xw yw fm =>
      simp [render_renderable] at h
      rcases h with h | h | h | h
      · exact Or.inl ⟨_, h⟩
      · exact Or.inr (Or.inl ⟨_, _, h⟩)
      · exact Or.inr (Or.inr (Or.inl ⟨_, h⟩))
      · exact Or.inr (Or.inr (Or.inr ⟨_, h⟩))
    | Loaded u =>
      simp [render_renderable] at h
      rcases h with h | h | h
      · exact Or.inl ⟨_, h⟩
      · exact Or.inr (Or.inl ⟨_, _, h⟩)
      · exact Or.inr (Or.inr (Or.inr ⟨_, h⟩))

theorem render_flatten_mem (pma : Bool) (rs : List Renderable) (e : FrameEvent)
    (h : e ∈ (rs.map (render_renderable pma)).flatten) :
    (∃ bs, e = FrameEvent.setBlend bs) ∨
    (∃ a b, e = FrameEvent.bufferUpdate a b) ∨
    (∃ p, e = FrameEvent.decodeImage p) ∨
    (∃ m, e = FrameEvent.drawCall m) := by
  rcases List.mem_flatten.mp h with ⟨l, hl, hel⟩
  rcases List.mem_map.mp hl with ⟨r, _, rfl⟩
  exact render_renderable_mem pma r e hel

theorem render_flatten_not_drain (pma : Bool) (rs : List Renderable)
    (e : FrameEvent) (h : e ∈ (rs.map (render_renderable pma)).flatten) :
    e.isDrain = false := by
  rcases render_flatten_mem pma rs e h with ⟨bs, rfl⟩ | ⟨a, b, rfl⟩ | ⟨p, rfl⟩ | ⟨m, rfl⟩ <;>
    rfl

theorem drains_before_draws_of_split (pre rest : List FrameEvent)
    (hpre : ∀ e ∈ pre, e.isDraw = false)
    (hrest : ∀ e ∈ rest, e.isDrain = false) :
    drains_before_draws (pre ++ rest) := by
  intro i j hi hj hdi hdj
  have hjlen : pre.length ≤ j := by
    by_contra hj'
    push_neg at hj'
    have hmem : (pre ++ rest).get ⟨j, hj⟩ ∈ pre := by
      rw [List.get_append j hj']
      exact List.get_mem _ _ _
    rw [hpre _ hmem] at hdj
    exact Bool.false_ne_true hdj
  have hilen : i < pre.length := by
    by_contra hi'
    push_neg at hi'
    have hb : i - pre.length < rest.length := by
      have hlen := hi
      rw [List.length_append] at hlen
      omega
    have hmem : (pre ++ rest).get ⟨i, hi⟩ ∈ rest := by
      rw [@List.get_append_right FrameEvent i pre rest hi' hi hb]
      exact List.get_mem _ _ _
    rw [hrest _ hmem] at hdi
    exact Bool.false_ne_true hdi
  omega

theorem foldl_enqueue_disposal (hs : List Nat) :
    ∀ acc, hs.foldl enqueue_disposal acc = acc ++ hs := by
  induction hs with
  | nil => intro acc; simp
  | cons h rest ih =>
    intro acc
    simp [List.foldl_cons, enqueue_disposal, ih]

theorem to_rows_length (line : Nat) :
    ∀ (hh : Nat) (buf : List Nat), (to_rows line hh buf).length = hh := by
  intro hh
  induction hh with
  | zero => intro buf; rfl
  | succ n ih => intro buf; simp [to_rows, ih]

theorem to_rows_flatten (line : Nat) :
    ∀ (hh : Nat) (buf : List Nat), buf.length = hh * line →
      (to_rows line hh buf).flatten = buf := by
  intro hh
  induction hh with
  | zero =>
    intro buf h
    simp at h
    simp [to_rows, h]
  | succ n ih =>
    intro buf h
    have hdrop : (buf.drop line).length = n * line := by
      simp [List.length_drop, h, Nat.succ_mul]
    simp only [to_rows, List.flatten_cons, ih (buf.drop line) hdrop]
    exact List.take_append_drop line buf

theorem to_rows_row_length (line : Nat) :
    ∀ (hh : Nat) (buf : List Nat), buf.length = hh * line →
      ∀ r ∈ to_rows line hh buf, r.length = line := by
  intro hh
  induction hh with
  | zero => intro buf _ r hr; simp [to_rows] at hr
  | succ n ih =>
    intro buf h r hr
    simp only [to_rows, List.mem_cons] at hr
    rcases hr with rfl | hr
    · rw [List.length_take, h, Nat.succ_mul]
      omega
    · exact ih (buf.drop line) (by simp [List.length_drop, h, Nat.succ_mul]) r hr

theorem getD_length_of_uniform (line : Nat) (rows : List (List Nat))
    (hu : ∀ r ∈ rows, r.length = line) {i : Nat} (hi : i < rows.length) :
    (rows.getD i []).length = line := by
  rw [List.getD_eq_getElem?_getD, List.getElem?_eq_getElem hi]
  exact hu _ (List.getElem_mem hi)

theorem get_seg_flatten (line : Nat) :
    ∀ (rows : List (List Nat)) (y : Nat),
      (∀ r ∈ rows, r.length = line) → y < rows.length →
      get_seg rows.flatten (y * line) line = rows.getD y [] := by
  intro rows
  induction rows with
  | nil => intro y _ hy; simp at hy
  | cons r rest ih =>
    intro y hu hy
    have hr : r.length = line := hu r (List.mem_cons_self r rest)
    cases y with
    | zero =>
      simp only [Nat.zero_mul, get_seg, List.drop_zero, List.flatten_cons,
        List.getD_cons_zero]
      rw [← hr]
      exact List.take_left r rest.flatten
    | succ n =>
      have hstep : (n + 1) * line = r.length + n * line := by
        rw [hr, Nat.succ_mul, Nat.add_comm]
      simp only [get_seg, List.flatten_cons, List.getD_cons_succ]
      rw [hstep, List.drop_append]
      exact ih n (fun q hq => hu q (List.mem_cons_of_mem r hq))
        (Nat.lt_of_succ_lt_succ hy)

theorem set_seg_flatten (line : Nat) :
    ∀ (rows : List (List Nat)) (y : Nat) (seg : List Nat),
      (∀ r ∈ rows, r.length = line) → y < rows.length → seg.length = line →
      set_seg rows.flatten seg (y * line) = (rows.set y seg).flatten := by
  intro rows
  induction rows with
  | nil => intro y _ _ hy; simp at hy
  | cons r rest ih =>
    intro y seg hu hy hseg
    have hr : r.length = line := hu r (List.mem_cons_self r rest)
    cases y with
    | zero =>
      simp only [Nat.zero_mul, set_seg, List.take_zero, List.nil_append,
        Nat.zero_add, List.flatten_cons, List.set_cons_zero]
      rw [hseg, ← hr, List.drop_left]
    | succ n =>
      have hstep : (n + 1) * line = r.length + n * line := by
        rw [hr, Nat.succ_mul, Nat.add_comm]
      have ihr := ih n seg (fun q hq => hu q (List.mem_cons_of_mem r hq))
        (Nat.lt_of_succ_lt_succ hy) hseg
      simp only [set_seg, List.flatten_cons, List.set_cons_succ]
      have hdrop : (n + 1) * line + seg.length =
          r.length + (n * line + seg.length) := by omega
      rw [hdrop, List.drop_append, hstep, List.take_append, ← ihr]
      simp [set_seg, List.append_assoc]

theorem row_swap_def (line h y : Nat) (buf : List Nat) :
    row_swap line h y buf =
      set_seg (set_seg buf (get_seg buf ((h - 1 - y) * line) line) (y * line))
        (get_seg buf (y * line) line) ((h - 1 - y) * line) := rfl

theorem row_swap_flatten (line h : Nat) (rows : List (List Nat)) (y : Nat)
    (hu : ∀ r ∈ rows, r.length = line) (hy : y < rows.length)
    (hy2 : h - 1 - y < rows.length) :
    row_swap line h y rows.flatten = (swap_rows rows y (h - 1 - y)).flatten := by
  rw [row_swap_def]
  unfold swap_rows
  rw [get_seg_flatten line rows y hu hy,
      get_seg_flatten line rows (h - 1 - y) hu hy2,
      set_seg_flatten line rows y _ hu hy
        (getD_length_of_uniform line rows hu hy2)]
  have hu2 : ∀ r ∈ rows.set y (rows.getD (h - 1 - y) []), r.length = line := by
    intro r hr
    rcases List.mem_or_eq_of_mem_set hr with hr | rfl
    · exact hu r hr
    · exact getD_length_of_uniform line rows hu hy2
  rw [set_seg_flatten line _ (h - 1 - y) _ hu2 (by simpa using hy2)
        (getD_length_of_uniform line rows hu hy)]

theorem fold_swap_flatten (line h : Nat) :
    ∀ (ys : List Nat) (rows : List (List Nat)),
      (∀ y ∈ ys, y < h / 2) → rows.length = h →
      (∀ r ∈ rows, r.length = line) →
      ys.foldl (fun b y => row_swap line h y b) rows.flatten =
        (ys.foldl (fun acc y => swap_rows acc y (h - 1 - y)) rows).flatten := by
  intro ys
  induction ys with
  | nil => intro rows _ _ _; rfl
  | cons y ys ih =>
    intro rows hys hlen hu
    have hy : y < h / 2 := hys y (List.mem_cons_self _ _)
    have hd2 : h / 2 ≤ h := Nat.div_le_self h 2
    have hyr : y < rows.length := by omega
    have hy2 : h - 1 - y < rows.length := by omega
    simp only [List.foldl_cons]
    rw [row_swap_flatten line h rows y hu hyr hy2]
    refine ih (swap_rows rows y (h - 1 - y))
      (fun w hw => hys w (List.mem_cons_of_mem _ hw)) ?_ ?_
    · simp [swap_rows, hlen]
    · intro r hr
      unfold swap_rows at hr
      rcases List.mem_or_eq_of_mem_set hr with hr | rfl
      · rcases List.mem_or_eq_of_mem_set hr with hr | rfl
        · exact hu r hr
        · exact getD_length_of_uniform line rows hu hy2
      · exact getD_length_of_uniform line rows hu hyr

theorem swap_rows_cons_append (x z : List Nat) (xs : List (List Nat))
    (y w : Nat) (hy : y < xs.length) (hw : w < xs.length) :
    swap_rows (x :: (xs ++ [z])) (y + 1) (w + 1) =
      x :: (swap_rows xs y w ++ [z]) := by
  unfold swap_rows
  rw [List.getD_cons_succ, List.getD_cons_succ,
      List.getD_append xs [z] [] y hy, List.getD_append xs [z] [] w hw,
      List.set_cons_succ, List.set_append_left _ _ hy,
      List.set_cons_succ, List.set_append_left _ _ (by simpa using hw)]

theorem swap_rows_first_last (a z : List Nat) (m : List (List Nat)) :
    swap_rows (a :: (m ++ [z])) 0 (m.length + 1) = z :: (m ++ [a]) := by
  unfold swap_rows
  rw [List.getD_cons_succ, List.getD_cons_zero,
      List.getD_append_right m [z] [] m.length (Nat.le_refl _)]
  simp only [Nat.sub_self, List.getD_cons_zero]
  rw [List.set_cons_zero, List.set_cons_succ,
      List.set_append_right _ _ (Nat.le_refl m.length)]
  simp

theorem foldl_swap_middle (M : Nat) :
    ∀ (ys : List Nat) (mid : List (List Nat)) (x z : List Nat),
      mid.length = M → (∀ y ∈ ys, y < M) →
      ys.foldl (fun acc y => swap_rows acc (y + 1) (M - y)) (x :: (mid ++ [z])) =
        x :: (ys.foldl (fun acc y => swap_rows acc y (M - 1 - y)) mid ++ [z]) := by
  intro ys
  induction ys with
  | nil => intro mid x z _ _; rfl
  | cons y ys ih =>
    intro mid x z hlen hys
    have hy : y < M := hys y (List.mem_cons_self _ _)
    have hsub : M - y = (M - 1 - y) + 1 := by omega
    simp only [List.foldl_cons]
    rw [hsub, swap_rows_cons_append x z mid y (M - 1 - y) (by omega) (by omega)]
    exact ih (swap_rows mid y (M - 1 - y)) x z (by simp [swap_rows, hlen])
      (fun u hu => hys u (List.mem_cons_of_mem _ hu))

theorem flip_rows_reverse_aux :
    ∀ (n : Nat) (l : List (List Nat)), l.length ≤ n →
      flip_rows l.length l = l.reverse := by
  intro n
  induction n with
  | zero =>
    intro l hl
    have hnil : l = [] := List.eq_nil_of_length_eq_zero (Nat.le_zero.mp hl)
    subst hnil
    rfl
  | succ n ih =>
    intro l hl
    match l with
    | [] => rfl
    | a :: xs =>
      rcases List.eq_nil_or_concat xs with rfl | ⟨m, z, rfl⟩
      · simp [flip_rows]
      · simp only [List.concat_eq_append] at hl ⊢
        have hN : (a :: (m ++ [z])).length = m.length + 2 := by simp
        unfold flip_rows
        rw [hN]
        have hdiv : (m.length + 2) / 2 = m.length / 2 + 1 := by omega
        have harith : ∀ y : Nat, m.length + 2 - 1 - y = m.length + 1 - y :=
          fun y => by omega
        simp only [harith]
        rw [hdiv, List.range_succ_eq_map, List.foldl_cons, List.foldl_map]
        have hfirst : swap_rows (a :: (m ++ [z])) 0 (m.length + 1 - 0) =
            z :: (m ++ [a]) := by
          rw [Nat.sub_zero]
          exact swap_rows_first_last a z m
        rw [hfirst]
        have harith2 : ∀ y : Nat, m.length + 1 - Nat.succ y = m.length - y :=
          fun y => by omega
        simp only [Nat.succ_eq_add_one, harith2]
        rw [foldl_swap_middle m.length (List.range (m.length / 2)) m z a rfl
          (fun y hy => by
            have := List.mem_range.mp hy
            have := Nat.div_le_self m.length 2
            omega)]
        have hinner : (List.range (m.length / 2)).foldl
            (fun acc y => swap_rows acc y (m.length - 1 - y)) m = m.reverse := by
          have := ih m (by simp at hl; omega)
          unfold flip_rows at this
          exact this
        rw [hinner]
        simp

/-! ## Theorems -/

/-- C1: for every blend mode in {Normal, Additive, Multiply, Screen} and every
premultiplied-alpha flag, `get_blend_states` equals the literal 8-row
blend-factor table of spec section 6 exactly: equation Add in all cases and
src/dst factors matching each entry, with no other cases. -/
theorem get_blend_states_matches_spec_table :
    ∀ (mode : BlendMode) (pma : Bool),
      get_blend_states mode pma = specBlendTable mode pma ∧
      (get_blend_states mode pma).alpha_blend.equation = Equation.Add ∧
      (get_blend_states mode pma).color_blend.equation = Equation.Add := by
  decide

/-- C2: resolving a `NeedsToBeLoaded` slot decodes the image, creates the GPU
texture and transitions the slot to `Loaded`; resolving a `Loaded` slot
returns the cached handle with no decode; after any resolve the slot is
`Loaded` with the returned handle (never reverting), and across any sequence
of resolves the slot is decoded at most once. -/
theorem texture_resolve_decode_once (create : CreateTexture)
    (path : String) (min_filter mag_filter : FilterMode)
    (x_wrap y_wrap : TextureWrap) (format : TextureFormat)
    (t : Nat) (s : SpineTexture) :
    (resolve_texture create
        (.NeedsToBeLoaded path min_filter mag_filter x_wrap y_wrap format)).decodes = 1 ∧
    (resolve_texture create
        (.NeedsToBeLoaded path min_filter mag_filter x_wrap y_wrap format)).state =
      .Loaded (create path min_filter mag_filter x_wrap y_wrap format) ∧
    resolve_texture create (.Loaded t) =
      { texture := t, state := .Loaded t, decodes := 0 } ∧
    (resolve_texture create s).state = .Loaded (resolve_texture create s).texture ∧
    (∀ n, (resolve_seq create n s).2 ≤ 1) := by
  refine ⟨rfl, rfl, rfl, ?_, ?_⟩
  · cases s <;> rfl
  · intro n
    cases s with
    | Loaded u =>
      rw [resolve_seq_loaded]
      exact Nat.zero_le 1
    | NeedsToBeLoaded p mf gf xw yw fm =>
      cases n with
      | zero => exact Nat.zero_le 1
      | succ m =>
        simp [resolve_seq, resolve_texture, resolve_seq_loaded]

/-- C3: the composition loop merges overlays in list order with
last-writer-wins on key collision; with no overlays the composite equals the
base skin. For singleton overlays A = [(k, a)] and B = [(k, b)] sharing key
`k`, composing [A, B] resolves `k` to B's value and [B, A] to A's value. -/
theorem skin_compose_laws (base : Skin) (overlays : List Skin) (o : Skin)
    (k : String) (a b : Nat) :
    compose base [] = base ∧
    compose base (overlays ++ [o]) = add_skin (compose base overlays) o ∧
    find_attachment (compose base [[(k, a)], [(k, b)]]) k = some b ∧
    find_attachment (compose base [[(k, b)], [(k, a)]]) k = some a := by
  refine ⟨rfl, by simp [compose], ?_, ?_⟩
  · exact find_attachment_insert_self (insert_attachment base k a) k b
  · exact find_attachment_insert_self (insert_attachment base k b) k a

/-- C8: the per-tick update advances animation time by
`max(dt, epsilon)` with `epsilon = 0.001`; for `dt <= 0` it advances by
exactly epsilon, never by zero or a negative amount. -/
theorem update_dt_clamp (now last : ℚ) (h : now - last ≤ 0) :
    update_dt now last = dtEpsilon ∧
    update_dt now last = max (now - last) dtEpsilon ∧
    0 < update_dt now last := by
  refine ⟨?_, rfl, ?_⟩
  · unfold update_dt dtEpsilon
    exact max_eq_right (by linarith)
  · have h2 : dtEpsilon ≤ update_dt now last := le_max_right _ _
    have h3 : (0 : ℚ) < dtEpsilon := by norm_num [dtEpsilon]
    linarith

/-- Witness for C8 at a concrete stalled clock (now = last = 5). -/
theorem update_dt_clamp_witness :
    (5 : ℚ) - 5 ≤ 0 ∧
    (update_dt 5 5 = dtEpsilon ∧
     update_dt 5 5 = max ((5 : ℚ) - 5) dtEpsilon ∧
     0 < update_dt 5 5) :=
  ⟨by norm_num, update_dt_clamp 5 5 (by norm_num)⟩

/-- C4 counterexample: the claim fails in file-capture mode. With
`render_png = true` and a pending handle 7 in the queue, `Stage::draw`
performs no drain event and leaves the queue non-empty. -/
theorem delete_queue_png_counterexample :
    (stage_draw (png_example [7] [])).2 ≠ [] ∧
    ((stage_draw (png_example [7] [])).1.filter FrameEvent.isDrain) = [] := by
  constructor
  · simp [stage_draw, png_example]
  · rfl

/-- C4 amended: in every frame of the screen (window) output mode the shared
delete queue is drained synchronously at the start of the frame, before any
draw call of that frame; draining empties the queue and yields the handles in
the order they were enqueued (enqueueing appends to the back). In
file-capture mode the queue is never drained. -/
theorem delete_queue_drain_discipline (s : DrawInput) (hs : List Nat) :
    (s.render_png = false →
      (stage_draw s).2 = [] ∧
      (stage_draw s).1.take s.texture_delete_queue.length =
        s.texture_delete_queue.map FrameEvent.drainTexture ∧
      (stage_draw s).1.filter FrameEvent.isDrain =
        s.texture_delete_queue.map FrameEvent.drainTexture ∧
      drains_before_draws (stage_draw s).1) ∧
    (s.render_png = true →
      (stage_draw s).1.filter FrameEvent.isDrain = [] ∧
      (stage_draw s).2 = s.texture_delete_queue) ∧
    hs.foldl enqueue_disposal [] = hs := by
  refine ⟨?_, ?_, by simpa using foldl_enqueue_disposal hs []⟩
  · intro hpng
    have hdraw : stage_draw s =
        (s.texture_delete_queue.map FrameEvent.drainTexture ++
          ([FrameEvent.beginDefaultPass] ++
            (s.renderables.map (render_renderable s.premultiplied_alpha)).flatten ++
            [FrameEvent.endPass, FrameEvent.commitFrame]), []) := by
      rw [stage_draw, hpng]
      simp
    have hdr : ∀ e ∈ s.texture_delete_queue.map FrameEvent.drainTexture,
        FrameEvent.isDrain e = true := by
      intro e he
      rcases List.mem_map.mp he with ⟨h, _, rfl⟩
      rfl
    have hrest : ∀ e ∈ ([FrameEvent.beginDefaultPass] ++
        (s.renderables.map (render_renderable s.premultiplied_alpha)).flatten ++
        [FrameEvent.endPass, FrameEvent.commitFrame]),
        FrameEvent.isDrain e = false := by
      intro e he
      rcases List.mem_append.mp he with he | he
      · rcases List.mem_append.mp he with he | he
        · simp at he
          subst he
          rfl
        · exact render_flatten_not_drain _ _ _ he
      · simp at he
        rcases he with he | he <;> (subst he; rfl)
    refine ⟨by rw [hdraw], ?_, ?_, ?_⟩
    · rw [hdraw]
      have hlen : s.texture_delete_queue.length =
          (s.texture_delete_queue.map FrameEvent.drainTexture).length := by simp
      rw [hlen, List.take_left]
    · rw [hdraw]
      rw [List.filter_append]
      rw [List.filter_eq_self.mpr hdr, List.filter_eq_nil_iff.mpr (by
        intro e he
        rw [hrest e he]
        exact Bool.false_ne_true)]
      simp
    · rw [hdraw]
      refine drains_before_draws_of_split _ _ ?_ hrest
      intro e he
      rcases List.mem_map.mp he with ⟨h, _, rfl⟩
      rfl
  · intro hpng
    have hdraw : stage_draw s =
        ([FrameEvent.beginOffscreenPass] ++
          (s.renderables.map (render_renderable s.premultiplied_alpha)).flatten ++
          [FrameEvent.endPass, FrameEvent.commitFrame,
           FrameEvent.readback
             (pixel_buffer_len (readback_width s.screen_size.1 s.dpi_scale)
               (readback_width s.screen_size.2 s.dpi_scale)),
           FrameEvent.flipRows, FrameEvent.saveImage s.png_path,
           FrameEvent.processExit 0],
         s.texture_delete_queue) := by
      rw [stage_draw, hpng]
      simp
    have hall : ∀ e ∈ (stage_draw s).1, FrameEvent.isDrain e = false := by
      rw [hdraw]
      intro e he
      rcases List.mem_append.mp he with he | he
      · rcases List.mem_append.mp he with he | he
        · simp at he
          subst he
          rfl
        · exact render_flatten_not_drain _ _ _ he
      · simp at he
        rcases he with he | he | he | he | he | he <;> (subst he; rfl)
    refine ⟨List.filter_eq_nil_iff.mpr (fun e he => ?_), by rw [hdraw]⟩
    rw [hall e he]
    exact Bool.false_ne_true

/-- Witness for C4's amended theorem: one screen-mode frame with queue
[3, 8] and one capture-mode frame with queue [7], plus the FIFO-enqueue law
at [1, 2, 3]. -/
theorem delete_queue_drain_discipline_witness :
    ((stage_draw (screen_example [3, 8] [])).2 = [] ∧
      (stage_draw (screen_example [3, 8] [])).1.take 2 =
        [FrameEvent.drainTexture 3, FrameEvent.drainTexture 8] ∧
      drains_before_draws (stage_draw (screen_example [3, 8] [])).1) ∧
    ((stage_draw (png_example [7] [])).1.filter FrameEvent.isDrain = [] ∧
      [1, 2, 3].foldl enqueue_disposal [] = [1, 2, 3]) := by
  have h1 := delete_queue_drain_discipline (screen_example [3, 8] []) [1, 2, 3]
  have h2 := delete_queue_drain_discipline (png_example [7] []) [1, 2, 3]
  obtain ⟨ha, -, hc⟩ := h1
  obtain ⟨h1a, h1b, h1c, h1d⟩ := ha rfl
  obtain ⟨-, hb, -⟩ := h2
  exact ⟨⟨h1a, h1b, h1d⟩, (hb rfl).1, hc⟩

/-- C5: the draw routine performs no explicit ceiling validation: no trace of
`Stage::draw` ever contains the fatal MeshOverflow event, and a renderable
exceeding both ceilings (10001 > MAX_MESH_VERTICES vertices, 6000 >
MAX_MESH_INDICES indices) has its full data streamed into the pooled buffers
and is drawn normally. -/
theorem mesh_overflow_never_validated :
    (∀ s : DrawInput, FrameEvent.meshOverflow ∉ (stage_draw s).1) ∧
    MAX_MESH_VERTICES < 10001 ∧ MAX_MESH_INDICES < 6000 ∧
    (stage_draw (screen_example []
        [⟨10001, 6000, some (.Loaded 5), .Normal⟩])).1 =
      [FrameEvent.beginDefaultPass,
       FrameEvent.setBlend (get_blend_states .Normal false),
       FrameEvent.bufferUpdate 10001 6000,
       FrameEvent.drawCall 6000,
       FrameEvent.endPass, FrameEvent.commitFrame] := by
  refine ⟨?_, by norm_num [MAX_MESH_VERTICES], by norm_num [MAX_MESH_INDICES], rfl⟩
  intro s hmem
  rw [stage_draw] at hmem
  by_cases hpng : s.render_png
  · simp only [hpng, if_true] at hmem
    rcases List.mem_append.mp hmem with h | h
    · rcases List.mem_append.mp h with h | h
      · simp at h
      · rcases render_flatten_mem _ _ _ h with ⟨bs, h⟩ | ⟨a, b, h⟩ | ⟨p, h⟩ | ⟨m, h⟩ <;>
          exact absurd h (by simp)
    · simp at h
  · simp only [hpng, if_false] at hmem
    rcases List.mem_append.mp hmem with h | h
    · rcases List.mem_map.mp h with ⟨u, _, h⟩
      exact absurd h.symm (by simp)
    · rcases List.mem_append.mp h with h | h
      · rcases List.mem_append.mp h with h | h
        · simp at h
        · rcases render_flatten_mem _ _ _ h with ⟨bs, h⟩ | ⟨a, b, h⟩ | ⟨p, h⟩ | ⟨m, h⟩ <;>
            exact absurd h (by simp)
      · simp at h

/-- C6: divergence between the offscreen target size and the readback size.
The color and depth targets are sized to logical 800 × dpi_scale, as the
claim says, but `screen_size` stores that physical size and the capture
branch multiplies it by dpi_scale again: at dpi_scale = 2 the target is
1600×1600 while the readback buffer is sized 3200×3200×4 bytes. At
dpi_scale = 1 the two coincide. -/
theorem capture_readback_size_mismatch :
    (offscreen_target_size 2).1 = logical_size.1 * 2 ∧
    readback_width (stage_new_screen_size 2).1 2 = 3200 ∧
    readback_width (stage_new_screen_size 2).1 2 ≠ logical_size.1 * 2 ∧
    pixel_buffer_len (readback_width (stage_new_screen_size 2).1 2)
        (readback_width (stage_new_screen_size 2).2 2) ≠
      pixel_buffer_len (offscreen_target_size 2).1 (offscreen_target_size 2).2 ∧
    (offscreen_target_size 1).1 = logical_size.1 * 1 ∧
    readback_width (stage_new_screen_size 1).1 1 = logical_size.1 * 1 := by
  have t1600 : Int.toNat 1600 = 1600 := rfl
  have t3200 : Int.toNat 3200 = 3200 := rfl
  have t800 : Int.toNat 800 = 800 := rfl
  refine ⟨?_, ?_, ?_, ?_, ?_, ?_⟩ <;>
    norm_num [offscreen_target_size, stage_new_screen_size, readback_width,
      pixel_buffer_len, logical_size, t1600, t3200, t800]

/-- C9: in file-capture mode the host loop runs exactly one frame: for any
frame budget n+1 the whole run equals the single first draw's trace, that
trace contains exactly one offscreen pass and exactly one image save, and it
ends with the save immediately followed by `exit(0)`; the capture branch is
never re-entered. -/
theorem file_capture_runs_once (pma : Bool) (dpi : ℚ) (ss : ℚ × ℚ)
    (path : String) (n : Nat) (queue : List Nat)
    (frames : Nat → List Renderable) :
    run_host true pma dpi ss path (n + 1) queue frames =
      (stage_draw { render_png := true, premultiplied_alpha := pma,
                    dpi_scale := dpi, screen_size := ss, png_path := path,
                    texture_delete_queue := queue,
                    renderables := frames 0 }).1 ∧
    (run_host true pma dpi ss path (n + 1) queue frames).count
        (FrameEvent.saveImage path) = 1 ∧
    (run_host true pma dpi ss path (n + 1) queue frames).count
        FrameEvent.beginOffscreenPass = 1 ∧
    ∃ pre, run_host true pma dpi ss path (n + 1) queue frames =
        pre ++ [FrameEvent.saveImage path, FrameEvent.processExit 0] ∧
      FrameEvent.saveImage path ∉ pre ∧ ∀ c, FrameEvent.processExit c ∉ pre := by
  set sd : DrawInput :=
    { render_png := true, premultiplied_alpha := pma, dpi_scale := dpi,
      screen_size := ss, png_path := path, texture_delete_queue := queue,
      renderables := frames 0 } with hsd
  have hexit : (stage_draw sd).1.any FrameEvent.isExit = true := by
    apply List.any_eq_true.mpr
    refine ⟨FrameEvent.processExit 0, ?_, rfl⟩
    rw [stage_draw]
    simp [hsd]
  have hrun : run_host true pma dpi ss path (n + 1) queue frames =
      (stage_draw sd).1 := by
    rw [run_host]
    simp only [hsd] at hexit ⊢
    rw [if_pos hexit]
  have hflat_save : FrameEvent.saveImage path ∉
      ((frames 0).map (render_renderable pma)).flatten := by
    intro h
    rcases render_flatten_mem _ _ _ h with ⟨bs, h⟩ | ⟨a, b, h⟩ | ⟨p, h⟩ | ⟨m, h⟩ <;>
      exact absurd h (by simp)
  have hflat_begin : FrameEvent.beginOffscreenPass ∉
      ((frames 0).map (render_renderable pma)).flatten := by
    intro h
    rcases render_flatten_mem _ _ _ h with ⟨bs, h⟩ | ⟨a, b, h⟩ | ⟨p, h⟩ | ⟨m, h⟩ <;>
      exact absurd h (by simp)
  have hflat_exit : ∀ c, FrameEvent.processExit c ∉
      ((frames 0).map (render_renderable pma)).flatten := by
    intro c h
    rcases render_flatten_mem _ _ _ h with ⟨bs, h⟩ | ⟨a, b, h⟩ | ⟨p, h⟩ | ⟨m, h⟩ <;>
      exact absurd h (by simp)
  refine ⟨hrun, ?_, ?_, ?_⟩
  · rw [hrun, stage_draw]
    simp only [hsd, if_true]
    rw [List.count_append, List.count_append]
    rw [List.count_eq_zero.mpr hflat_save]
    simp [List.count_cons]
  · rw [hrun, stage_draw]
    simp only [hsd, if_true]
    rw [List.count_append, List.count_append]
    rw [List.count_eq_zero.mpr hflat_begin]
    simp [List.count_cons]
  · refine ⟨[FrameEvent.beginOffscreenPass] ++
      ((frames 0).map (render_renderable pma)).flatten ++
      [FrameEvent.endPass, FrameEvent.commitFrame,
       FrameEvent.readback (pixel_buffer_len (readback_width ss.1 dpi)
         (readback_width ss.2 dpi)), FrameEvent.flipRows], ?_, ?_, ?_⟩
    · rw [hrun, stage_draw]
      simp [hsd]
    · intro h
      rcases List.mem_append.mp h with h | h
      · rcases List.mem_append.mp h with h | h
        · simp at h
        · exact hflat_save h
      · simp at h
    · intro c h
      rcases List.mem_append.mp h with h | h
      · rcases List.mem_append.mp h with h | h
        · simp at h
        · exact hflat_exit c h
      · simp at h

/-- C7: the in-place pairwise row-swap vertical flip is an involution on
every `w*h*4`-byte buffer, and a single application reverses the order of the
`h` rows (the flipped buffer is the reversal of the buffer's row
decomposition). -/
theorem flip_vertical_involution (w h : Nat) (buf : List Nat)
    (hlen : buf.length = w * h * 4) :
    flip_vertical w h buf = ((to_rows (w * 4) h buf).reverse).flatten ∧
    flip_vertical w h (flip_vertical w h buf) = buf := by
  have hbuf : buf.length = h * (w * 4) := by rw [hlen]; ring
  have hrl : (to_rows (w * 4) h buf).length = h := to_rows_length (w * 4) h buf
  have hru : ∀ r ∈ to_rows (w * 4) h buf, r.length = w * 4 :=
    to_rows_row_length (w * 4) h buf hbuf
  have hflat : (to_rows (w * 4) h buf).flatten = buf :=
    to_rows_flatten (w * 4) h buf hbuf
  have key : ∀ rs : List (List Nat), rs.length = h →
      (∀ r ∈ rs, r.length = w * 4) →
      flip_vertical w h rs.flatten = rs.reverse.flatten := by
    intro rs h1 h2
    unfold flip_vertical
    rw [fold_swap_flatten (w * 4) h (List.range (h / 2)) rs
      (fun y hy => List.mem_range.mp hy) h1 h2]
    have hfr : (List.range (h / 2)).foldl
        (fun acc y => swap_rows acc y (h - 1 - y)) rs = flip_rows h rs := rfl
    rw [hfr, ← h1, flip_rows_reverse_aux rs.length rs (Nat.le_refl _)]
  have h1 := key (to_rows (w * 4) h buf) hrl hru
  rw [hflat] at h1
  constructor
  · exact h1
  · have hrev_len : (to_rows (w * 4) h buf).reverse.length = h := by simp [hrl]
    have hrev_u : ∀ r ∈ (to_rows (w * 4) h buf).reverse, r.length = w * 4 :=
      fun r hr => hru r (List.mem_reverse.mp hr)
    rw [h1, key (to_rows (w * 4) h buf).reverse hrev_len hrev_u,
        List.reverse_reverse, hflat]

/-- Witness for C7 at a concrete 1×3 RGBA buffer (12 bytes). -/
theorem flip_vertical_involution_witness :
    ([0, 1, 2, 3, 4, 5, 6, 7, 8, 9, 10, 11] : List Nat).length = 1 * 3 * 4 ∧
    (flip_vertical 1 3 [0, 1, 2, 3, 4, 5, 6, 7, 8, 9, 10, 11] =
       ((to_rows (1 * 4) 3 [0, 1, 2, 3, 4, 5, 6, 7, 8, 9, 10, 11]).reverse).flatten ∧
     flip_vertical 1 3 (flip_vertical 1 3 [0, 1, 2, 3, 4, 5, 6, 7, 8, 9, 10, 11]) =
       [0, 1, 2, 3, 4, 5, 6, 7, 8, 9, 10, 11]) :=
  ⟨by decide, flip_vertical_involution 1 3 _ (by decide)⟩

/-- C10: `Spine::load` builds the world transform from a position whose y
component equals the configured position's y minus 300, x unchanged, applied
after the configured scale; the configured position is never the rendered
translation. -/
theorem spine_load_position_offset (info : SpineInfoM) :
    spine_load_translation info = (info.position.1, info.position.2 - 300) ∧
    spine_load_translation info ≠ info.position ∧
    (∀ v : ℚ × ℚ, spine_load_world info v =
      (info.position.1 + info.scale * v.1,
       (info.position.2 - 300) + info.scale * v.2)) := by
  refine ⟨rfl, ?_, fun v => rfl⟩
  intro hEq
  have hy : info.position.2 - 300 = info.position.2 := congrArg Prod.snd hEq
  linarith

end SpineCli
